import Mathlib

set_option autoImplicit false

/-!
Verification development for the Credential Integrity & Verification Core
of the CAPSTONE-2 credential system.

The repository's checked-in sources contain the employer dashboard UI
(`client/pages/dashboard/Employer.tsx`) and CI/deployment plumbing; the
integrity core itself (canonical encoder, fingerprint engine, ledger,
proof builder, token codec, verifier) is specified in `spec.md` but its
implementation is not among the checked-in sources.  Definitions for the
core are therefore modelled from the spec (each such definition says so in
its doc comment); the dashboard definitions are translated directly from
`Employer.tsx`.
-/

/-- Byte strings are modelled as lists of naturals; a well-formed byte is `< 256`. -/
abbrev Bytes := List Nat

/-- Modelled from the spec: the Fingerprint Engine (§4.2) — a 256-bit
cryptographically secure hash — is not in the repository sources.  We model it
as a concrete pure mixing function producing a value below `2 ^ 256`
(a 32-byte digest).  Cryptographic collision resistance is not representable;
purity, determinism and the 32-byte output range are. -/
def fingerprint (b : Bytes) : Nat :=
  b.foldl (fun a x => (a * 16777619 + x + 1) % 2 ^ 256) 2166136261

/-- Fixed-width little-endian byte encoding of a natural number (`k` bytes). -/
def natFixed : Nat → Nat → Bytes
  | 0, _ => []
  | k + 1, n => n % 256 :: natFixed k (n / 256)

/-- Little-endian byte decoding. -/
def fromBytesLE : Bytes → Nat
  | [] => 0
  | b :: rest => b + 256 * fromBytesLE rest

/-- Length-prefixed byte string: a fixed-width 4-byte length prefix followed by
the content (spec §4.1: "fixed-width length prefixes for variable-length
fields to prevent concatenation collisions"). -/
def encBytes (b : Bytes) : Bytes := natFixed 4 b.length ++ b

/-- Modelled from the spec: an attribute value of a CredentialRecord (§3 —
"strings/dates/numbers"); the canonical encoder gives each variant an explicit
type tag (§4.1).  Integers carry a sign and a magnitude below `2 ^ 64`
(enforced by `wfRecord`); timestamps are naturals below `2 ^ 64`. -/
inductive AttrValue
  | vstr (s : Bytes)
  | vint (i : Int)
  | vts (t : Nat)
  deriving DecidableEq

/-- Modelled from the spec: a CredentialRecord (§3) — issuer id, subject id,
attribute mapping, issuance timestamp, schema version.  Ids and attribute keys
are byte strings. -/
structure CredentialRecord where
  issuer : Bytes
  subject : Bytes
  attrs : List (Bytes × AttrValue)
  timestamp : Nat
  schemaVersion : Nat
  deriving DecidableEq

/-- Lexicographic byte-string order used to canonicalize attribute keys
(spec §4.1: "total-order over attribute keys (lexicographic)"). -/
def bytesLE : Bytes → Bytes → Bool
  | [], _ => true
  | _ :: _, [] => false
  | a :: as, b :: bs => if a < b then true else if b < a then false else bytesLE as bs

/-- Insert one attribute into a key-sorted attribute list. -/
def insertAttr (a : Bytes × AttrValue) : List (Bytes × AttrValue) → List (Bytes × AttrValue)
  | [] => [a]
  | b :: rest => if bytesLE a.1 b.1 then a :: b :: rest else b :: insertAttr a rest

/-- Sort an attribute list by key (insertion sort). -/
def sortAttrs : List (Bytes × AttrValue) → List (Bytes × AttrValue)
  | [] => []
  | a :: rest => insertAttr a (sortAttrs rest)

/-- Canonical form of a record: attributes sorted by key. -/
def canon (r : CredentialRecord) : CredentialRecord :=
  ⟨r.issuer, r.subject, sortAttrs r.attrs, r.timestamp, r.schemaVersion⟩

/-- Semantic equality of records: equality after canonicalization. -/
def semEq (r1 r2 : CredentialRecord) : Prop := canon r1 = canon r2

/-- Modelled from the spec: type-tagged encoding of one attribute value (§4.1 —
"explicit type tags per value ... to avoid ambiguous encodings"). -/
def encValue : AttrValue → Bytes
  | .vstr s => 0 :: encBytes s
  | .vint i => 1 :: (if i < 0 then 1 else 0) :: natFixed 8 i.natAbs
  | .vts t => 2 :: natFixed 8 t

/-- Encoding of one key/value attribute pair. -/
def encAttr (a : Bytes × AttrValue) : Bytes := encBytes a.1 ++ encValue a.2

/-- Encoding of an attribute list: 4-byte count then the concatenated pairs. -/
def encAttrList (l : List (Bytes × AttrValue)) : Bytes :=
  natFixed 4 l.length ++ (l.map encAttr).flatten

/-- Concatenation of all fields of a record, without canonicalization. -/
def rawEncode (r : CredentialRecord) : Bytes :=
  encBytes r.issuer ++ encBytes r.subject ++ encAttrList r.attrs ++
    natFixed 8 r.timestamp ++ natFixed 4 r.schemaVersion

/-- Size bounds on one attribute value under which the fixed-width encodings
are unambiguous. -/
def wfValue : AttrValue → Bool
  | .vstr s => decide (s.length < 2 ^ 32)
  | .vint i => decide (i.natAbs < 2 ^ 64)
  | .vts t => decide (t < 2 ^ 64)

/-- Size bounds on a record under which the fixed-width length prefixes of the
canonical encoding are unambiguous. -/
def wfRecord (r : CredentialRecord) : Bool :=
  decide (r.issuer.length < 2 ^ 32) && decide (r.subject.length < 2 ^ 32) &&
    decide (r.attrs.length < 2 ^ 32) &&
    r.attrs.all (fun a => decide (a.1.length < 2 ^ 32) && wfValue a.2) &&
    decide (r.timestamp < 2 ^ 64) && decide (r.schemaVersion < 2 ^ 32)

/-- Modelled from the spec: the Canonical Encoder's `encode(record) -> bytes`
(§4.1) is not in the repository sources.  It canonicalizes (sorts attributes
by key) and concatenates the type-tagged, length-prefixed fields; it fails
(MalformedRecord, modelled as `none`) when an attribute key is empty.  All
`AttrValue` variants are supported types, so no other failure exists. -/
def encode (r : CredentialRecord) : Option Bytes :=
  if r.attrs.all (fun a => !a.1.isEmpty) then some (rawEncode (canon r)) else none

/-- Fingerprint of a record as the Verifier recomputes it (spec §4.6 step 1). -/
def credFingerprint (r : CredentialRecord) : Nat := fingerprint (rawEncode (canon r))

/-- Bound on one attribute of a pair list, as used by the encoder lemmas. -/
def wfAttr (a : Bytes × AttrValue) : Bool :=
  decide (a.1.length < 2 ^ 32) && wfValue a.2

/-- Hash of an interior Merkle node from its two children (spec §2: each batch
is "a Merkle tree of fingerprints"); children are serialized as 32-byte
values and hashed with the fingerprint engine. -/
def hashPair (a b : Nat) : Nat := fingerprint (natFixed 32 a ++ natFixed 32 b)

/-- One level of the Merkle tree: hash adjacent pairs; an odd leaf count is
padded by duplicating the last leaf (spec §4.4 — "odd-leaf-count batches pad
by duplicating the last leaf, not by padding with zero"). -/
def level : List Nat → List Nat
  | [] => []
  | [a] => [hashPair a a]
  | a :: b :: rest => hashPair a b :: level rest

/-- Merkle root with explicit fuel (the fuel is an upper bound on the number
of levels; `l.length` always suffices). -/
def merkleAux : Nat → List Nat → Nat
  | _, [] => 0
  | _, [a] => a
  | 0, _ :: _ :: _ => 0
  | fuel + 1, a :: b :: rest => merkleAux fuel (level (a :: b :: rest))

/-- Modelled from the spec: Merkle root of a list of leaves, ordered by
sequence number (spec §4.3 `close_batch`). -/
def merkleRoot (l : List Nat) : Nat := merkleAux l.length l

/-- Sibling of the leaf at index `i` in the current level: the pair partner,
or the leaf itself when it is a lone last leaf at even index. -/
def siblingAt (l : List Nat) (i : Nat) : Nat :=
  if i % 2 = 0 then (if i + 1 < l.length then l.getD (i + 1) 0 else l.getD i 0)
  else l.getD (i - 1) 0

/-- Sibling path from the leaf at index `i` up to the root, with explicit
fuel.  Each step records whether the sibling sits to the left (`true` for an
odd index) together with the sibling hash. -/
def buildPathAux : Nat → List Nat → Nat → List (Bool × Nat)
  | 0, _, _ => []
  | fuel + 1, l, i =>
    if l.length ≤ 1 then []
    else (decide (i % 2 = 1), siblingAt l i) :: buildPathAux fuel (level l) (i / 2)

/-- Modelled from the spec: the sibling-hash path of an inclusion proof
(spec §4.4, "standard Merkle path derivation"). -/
def buildPath (l : List Nat) (i : Nat) : List (Bool × Nat) := buildPathAux l.length l i

/-- Modelled from the spec: the Verifier's step 3 — recompute the Merkle root
by replaying the sibling path starting from a leaf (spec §4.6). -/
def replayPath (leaf : Nat) (path : List (Bool × Nat)) : Nat :=
  path.foldl (fun acc p => if p.1 then hashPair p.2 acc else hashPair acc p.2) leaf

/-- Modelled from the spec: a LedgerEntry (§3) — fingerprint, sequence number,
batch id. -/
structure LedgerEntry where
  fp : Nat
  seq : Nat
  batchId : Nat
  deriving DecidableEq

/-- Modelled from the spec: a closed Batch (§3) — monotonic id, ordered
entries, Merkle root, previous batch root, close timestamp. -/
structure Batch where
  id : Nat
  entries : List LedgerEntry
  merkleRoot : Nat
  previousRoot : Nat
  closeTime : Nat
  deriving DecidableEq

/-- Modelled from the spec: the fixed genesis constant that `batch[0]`'s
`previous_root` links to (§3). -/
def genesisRoot : Nat := 0

/-- Modelled from the spec: the Ledger's state (§4.3) — the closed batches in
order, the open batch's entries, the next sequence number, and the open
batch's id. -/
structure LedgerState where
  closed : List Batch
  openEntries : List LedgerEntry
  nextSeq : Nat
  openBatchId : Nat
  deriving DecidableEq

/-- The ledger at process start: no batches, an empty open batch. -/
def initialLedger : LedgerState := ⟨[], [], 0, 0⟩

/-- Root of the most recently closed batch, or the genesis constant. -/
def lastRoot (s : LedgerState) : Nat :=
  match s.closed.getLast? with
  | some b => b.merkleRoot
  | none => genesisRoot

/-- Modelled from the spec: `append(fingerprint) -> LedgerEntry` (§4.3) —
assigns the next sequence number atomically and adds the fingerprint as a new
leaf of the open batch. -/
def append (s : LedgerState) (f : Nat) : LedgerState × LedgerEntry :=
  let e : LedgerEntry := ⟨f, s.nextSeq, s.openBatchId⟩
  (⟨s.closed, s.openEntries ++ [e], s.nextSeq + 1, s.openBatchId⟩, e)

/-- Modelled from the spec: `close_batch() -> Batch` (§4.3) — finalizes the
Merkle root over the open leaves (ordered by sequence number), links to the
previous batch's root, and opens a fresh batch.  Closing an empty open batch
is a no-op (there is nothing to finalize; closing is "idempotent-safe"). -/
def close_batch (s : LedgerState) (t : Nat) : LedgerState × Option Batch :=
  if s.openEntries.isEmpty then (s, none)
  else
    let b : Batch := ⟨s.openBatchId, s.openEntries,
      merkleRoot (s.openEntries.map LedgerEntry.fp), lastRoot s, t⟩
    (⟨s.closed ++ [b], [], s.nextSeq, s.openBatchId + 1⟩, some b)

/-- Modelled from the spec: `get_batch(id) -> Batch` (§4.3), read-only. -/
def get_batch (s : LedgerState) (id : Nat) : Option Batch :=
  s.closed.find? (fun b => b.id == id)

/-- Ledger states reachable from the initial state by `append` and
`close_batch`; `get_batch` is read-only and does not change the state. -/
inductive Reachable : LedgerState → Prop
  | init : Reachable initialLedger
  | app {s : LedgerState} (f : Nat) : Reachable s → Reachable (append s f).1
  | close {s : LedgerState} (t : Nat) : Reachable s → Reachable (close_batch s t).1

/-- All entries of the ledger in order: closed batches' entries then the open
batch's entries. -/
def allEntries (s : LedgerState) : List LedgerEntry :=
  (s.closed.map Batch.entries).flatten ++ s.openEntries

/-- Fingerprint leaves of a batch, ordered by sequence number. -/
def leavesOf (b : Batch) : List Nat := b.entries.map LedgerEntry.fp

/-- Fingerprints currently in the open batch. -/
def openFps (s : LedgerState) : List Nat := s.openEntries.map LedgerEntry.fp

/-- Fingerprints recorded in closed batches. -/
def closedFps (s : LedgerState) : List Nat := (s.closed.map leavesOf).flatten

/-- Hash-chain linkage of a batch list starting from a given previous root. -/
def chainOk : Nat → List Batch → Prop
  | _, [] => True
  | g, b :: rest => b.previousRoot = g ∧ chainOk b.merkleRoot rest

/-- Structural invariant of the ledger state: every closed batch's recorded
root is the Merkle root of its leaves and is nonempty, batch ids are
`0, 1, ...` in order, the chain links hold from genesis, and the sequence
numbers of all entries in order are exactly `0, ..., nextSeq - 1`. -/
def WFLedger (s : LedgerState) : Prop :=
  (∀ b ∈ s.closed, b.merkleRoot = merkleRoot (leavesOf b) ∧ b.entries ≠ []) ∧
  s.closed.map Batch.id = List.range s.openBatchId ∧
  chainOk genesisRoot s.closed ∧
  (allEntries s).map LedgerEntry.seq = List.range s.nextSeq

/-- Modelled from the spec: an InclusionProof (§3) — leaf fingerprint,
sibling-hash path, batch id, and the chain of batch roots from this batch
back to genesis. -/
structure InclusionProof where
  leafFp : Nat
  siblingPath : List (Bool × Nat)
  batchId : Nat
  rootChain : List Nat
  deriving DecidableEq

/-- Modelled from the spec: a VerificationToken (§3) — format version,
credential id, Fingerprint, InclusionProof, issuer signature. -/
structure VerificationToken where
  version : Nat
  credId : Bytes
  fp : Nat
  proof : InclusionProof
  signature : Nat
  deriving DecidableEq

/-- The ledger's authoritative chain of batch roots from batch `id` back to
genesis (most recent first), as recorded in proofs and walked by the
Verifier's step 4 (spec §4.6). -/
def chainFor (s : LedgerState) (id : Nat) : List Nat :=
  ((s.closed.filter (fun b => b.id ≤ id)).map Batch.merkleRoot).reverse

/-- Modelled from the spec: the injected issuer signing capability
(`sign(bytes) -> signature`, §6); modelled as a keyed hash. -/
def sign (msg : Bytes) : Nat := fingerprint (42 :: msg)

/-- Message the issuer signs: `credential id ‖ Fingerprint ‖ batch id`
(spec §3, VerificationToken). -/
def sigPayload (credId : Bytes) (f batchId : Nat) : Bytes :=
  credId ++ natFixed 32 f ++ natFixed 4 batchId

/-- Modelled from the spec: `build_proof(fingerprint) -> InclusionProof |
NotFound` (§4.4).  Searches closed batches oldest-first (per §4.3 "callers
should treat the earliest sequence number as canonical issuance"), then the
open batch's in-progress tree; `none` models NotFound. -/
def build_proof (s : LedgerState) (f : Nat) : Option InclusionProof :=
  match s.closed.find? (fun b => (leavesOf b).contains f) with
  | some b => some ⟨f, buildPath (leavesOf b) ((leavesOf b).indexOf f), b.id, chainFor s b.id⟩
  | none =>
    if f ∈ openFps s then
      some ⟨f, buildPath (openFps s) ((openFps s).indexOf f), s.openBatchId,
        chainFor s s.openBatchId⟩
    else none

/-- Modelled from the spec: the issuance workflow (§6 Issuance API) —
fingerprint the record, build its inclusion proof, and pack the token with
the issuer signature over `(credential id ‖ Fingerprint ‖ batch id)`. -/
def issue (s : LedgerState) (credId : Bytes) (r : CredentialRecord) : Option VerificationToken :=
  match build_proof s (credFingerprint r) with
  | none => none
  | some pr => some ⟨1, credId, credFingerprint r, pr,
      sign (sigPayload credId (credFingerprint r) pr.batchId)⟩

/-- Modelled from the spec: the VerificationVerdict statuses (§3). -/
inductive Verdict
  | Verified
  | TamperedData
  | BrokenChain
  | InvalidSignature
  | UnknownBatch
  | MalformedToken
  deriving DecidableEq

/-- Modelled from the spec: the Verifier (§4.6).  Step 1 recomputes the
fingerprint of the presented record; step 2 returns TamperedData on mismatch
with the token's fingerprint; step 3 replays the sibling path against the
recorded batch root (an unknown batch id is UnknownBatch); step 4 checks the
proof's root chain against the ledger's authoritative chain; step 5 checks
the issuer signature; step 6 returns Verified. -/
def verify (s : LedgerState) (presented : CredentialRecord) (t : VerificationToken) : Verdict :=
  let f := credFingerprint presented
  if f ≠ t.fp then .TamperedData
  else
    match get_batch s t.proof.batchId with
    | none => .UnknownBatch
    | some b =>
      if replayPath f t.proof.siblingPath ≠ b.merkleRoot then .BrokenChain
      else if t.proof.rootChain ≠ chainFor s t.proof.batchId then .BrokenChain
      else if t.signature ≠ sign (sigPayload t.credId t.fp t.proof.batchId) then .InvalidSignature
      else .Verified

/-- Concrete record for the witnesses: `{name: "Alice", degree: "B.Sc"}`
(spec §8 Scenario A), attribute names and values as ASCII bytes. -/
def aliceRecord : CredentialRecord :=
  ⟨[10], [20],
    [([110, 97, 109, 101], .vstr [65, 108, 105, 99, 101]),
     ([100, 101, 103, 114, 101, 101], .vstr [66, 46, 83, 99])],
    1700000000, 1⟩

/-- The same data presented with `degree: "M.Sc"` (spec §8 Scenario B). -/
def mscRecord : CredentialRecord :=
  ⟨[10], [20],
    [([110, 97, 109, 101], .vstr [65, 108, 105, 99, 101]),
     ([100, 101, 103, 114, 101, 101], .vstr [77, 46, 83, 99])],
    1700000000, 1⟩

/-- Alice's record with the attribute list given in the other order; encodes
identically after canonicalization. -/
def aliceSwapped : CredentialRecord :=
  ⟨[10], [20],
    [([100, 101, 103, 114, 101, 101], .vstr [66, 46, 83, 99]),
     ([110, 97, 109, 101], .vstr [65, 108, 105, 99, 101])],
    1700000000, 1⟩

/-- A small reachable ledger: Alice's fingerprint appended and the batch
closed at time 7. -/
def demoState : LedgerState :=
  (close_batch (append initialLedger (credFingerprint aliceRecord)).1 7).1

/-- A token carrying Alice's genuine fingerprint (used to present tampered
data against it). -/
def demoToken : VerificationToken :=
  ⟨1, [1], credFingerprint aliceRecord, ⟨credFingerprint aliceRecord, [], 0, []⟩, 0⟩

/-- Modelled from the spec: the explicit format-version byte of the token
payload (§4.5). -/
def versionByte : Nat := 1

/-- Modelled from the spec: result of `decode(payload)` — a token, the
explicit MalformedToken value, or UnsupportedVersion for an unknown
format-version byte (§4.5, §7). -/
inductive DecodeResult
  | ok (t : VerificationToken)
  | malformed
  | unsupportedVersion
  deriving DecidableEq

/-- Serialization of one sibling-path step: a direction byte (1 when the
sibling is on the left) then the 32-byte sibling hash. -/
def encPathEntry (e : Bool × Nat) : Bytes := (if e.1 then 1 else 0) :: natFixed 32 e.2

/-- Body of the token payload, after the version byte: length-prefixed
credential id, 32-byte fingerprint, 4-byte batch id, 32-byte leaf
fingerprint, count-prefixed sibling path, count-prefixed root chain, 32-byte
signature. -/
def encodeBody (t : VerificationToken) : Bytes :=
  encBytes t.credId ++ natFixed 32 t.fp ++ natFixed 4 t.proof.batchId ++
    natFixed 32 t.proof.leafFp ++
    natFixed 4 t.proof.siblingPath.length ++ (t.proof.siblingPath.map encPathEntry).flatten ++
    natFixed 4 t.proof.rootChain.length ++ (t.proof.rootChain.map (natFixed 32)).flatten ++
    natFixed 32 t.signature

/-- Modelled from the spec: the Token Codec's `encode(token) -> payload`
(§4.5) — a versioned binary payload with an explicit format-version byte. -/
def encodeToken (t : VerificationToken) : Bytes := versionByte :: encodeBody t

/-- Reads exactly `n` bytes, failing on truncated input. -/
def readN (n : Nat) (p : Bytes) : Option (Bytes × Bytes) :=
  if n ≤ p.length then some (p.take n, p.drop n) else none

/-- Reads `k` sibling-path steps; a direction byte above 1 is rejected. -/
def readPath : Nat → Bytes → Option (List (Bool × Nat) × Bytes)
  | 0, p => some ([], p)
  | k + 1, p =>
    match readN 33 p with
    | none => none
    | some (chunk, rest) =>
      match chunk with
      | [] => none
      | d :: sib =>
        if d ≤ 1 then
          match readPath k rest with
          | none => none
          | some (l, r) => some ((d == 1, fromBytesLE sib) :: l, r)
        else none

/-- Reads `k` 32-byte batch roots. -/
def readRoots : Nat → Bytes → Option (List Nat × Bytes)
  | 0, p => some ([], p)
  | k + 1, p =>
    match readN 32 p with
    | none => none
    | some (c, rest) =>
      match readRoots k rest with
      | none => none
      | some (l, r) => some (fromBytesLE c :: l, r)

/-- Parses the token body; every field is checked and the payload must be
consumed exactly (no trailing bytes), so truncated or padded payloads fail. -/
def parseBody (q : Bytes) : Option VerificationToken :=
  match readN 4 q with
  | none => none
  | some (lenB, r1) =>
    match readN (fromBytesLE lenB) r1 with
    | none => none
    | some (credId, r2) =>
      match readN 32 r2 with
      | none => none
      | some (fpB, r3) =>
        match readN 4 r3 with
        | none => none
        | some (bidB, r4) =>
          match readN 32 r4 with
          | none => none
          | some (leafB, r5) =>
            match readN 4 r5 with
            | none => none
            | some (plB, r6) =>
              match readPath (fromBytesLE plB) r6 with
              | none => none
              | some (pth, r7) =>
                match readN 4 r7 with
                | none => none
                | some (clB, r8) =>
                  match readRoots (fromBytesLE clB) r8 with
                  | none => none
                  | some (chain, r9) =>
                    match readN 32 r9 with
                    | none => none
                    | some (sigB, r10) =>
                      match r10 with
                      | [] => some ⟨versionByte, credId, fromBytesLE fpB,
                          ⟨fromBytesLE leafB, pth, fromBytesLE bidB, chain⟩,
                          fromBytesLE sigB⟩
                      | _ :: _ => none

/-- Successful body parse or the explicit MalformedToken value; never the
version verdict. -/
def decodeBody (q : Bytes) : DecodeResult :=
  match parseBody q with
  | some t => .ok t
  | none => .malformed

/-- Modelled from the spec: the Token Codec's `decode(payload) ->
VerificationToken | MalformedToken` (§4.5), with graceful degradation to
UnsupportedVersion on an unknown format-version byte.  A payload with a
value that is not a byte, or an empty payload, is malformed. -/
def decode (p : Bytes) : DecodeResult :=
  if p.all (fun b => decide (b < 256)) then
    match p with
    | [] => .malformed
    | v :: q => if v = versionByte then decodeBody q else .unsupportedVersion
  else .malformed

/-- Size bounds making a token exactly serializable: fixed-width fields fit
their widths and the version byte is the supported one. -/
def wfToken (t : VerificationToken) : Bool :=
  decide (t.version = versionByte) &&
    decide (t.credId.length < 2 ^ 32) && t.credId.all (fun b => decide (b < 256)) &&
    decide (t.fp < 2 ^ 256) && decide (t.proof.batchId < 2 ^ 32) &&
    decide (t.proof.leafFp < 2 ^ 256) &&
    decide (t.proof.siblingPath.length < 2 ^ 32) &&
    t.proof.siblingPath.all (fun e => decide (e.2 < 2 ^ 256)) &&
    decide (t.proof.rootChain.length < 2 ^ 32) &&
    t.proof.rootChain.all (fun x => decide (x < 2 ^ 256)) &&
    decide (t.signature < 2 ^ 256)

/-- Concrete well-formed token for the C7 witness. -/
def demoWfToken : VerificationToken :=
  ⟨1, [7, 8], 5, ⟨6, [(true, 9)], 3, [4]⟩, 11⟩

/-- A JavaScript-like value for the dashboard's loosely-typed fields
(`results` items are `any[]` in `Employer.tsx`). -/
inductive JsVal
  | undef
  | jsNull
  | jbool (b : Bool)
  | jnum (n : Int)
  | jstr (s : String)
  deriving DecidableEq

/-- JavaScript truthiness of a `JsVal`, as used by conditional rendering. -/
def truthy : JsVal → Bool
  | .undef => false
  | .jsNull => false
  | .jbool b => b
  | .jnum n => decide (n ≠ 0)
  | .jstr s => decide (s ≠ "")

/-- The `proof` object attached to a search result; its `hash` field may be
absent (`r.proof.hash?.` in `Employer.tsx` line 77). -/
structure ProofInfo where
  hash : Option String
  deriving DecidableEq

/-- The `student` object of a search result (`r.student` in `Employer.tsx`). -/
structure Student where
  id : String
  data : List (String × String)
  deriving DecidableEq

/-- One employer search result as consumed by `Employer.tsx`: `student`,
a loosely-typed `verified` flag, and an optional `proof` object. -/
structure SearchResult where
  student : Student
  verified : JsVal
  proof : Option ProofInfo
  deriving DecidableEq

/-- The search API response; the `results` field may be absent. -/
structure SearchResponse where
  results : Option (List SearchResult)
  deriving DecidableEq

/-- From `Employer.tsx` line 12 (`setResults(data.results || [])`): the
result list shown, defaulting to the empty array when `results` is absent. -/
def doSearchResults (resp : SearchResponse) : List SearchResult :=
  resp.results.getD []

/-- From `Employer.tsx` lines 54-62: the badge text is chosen by the
truthiness of `r.verified` — exactly two states. -/
def badgeText (r : SearchResult) : String :=
  if truthy r.verified then "✓ Verified on Blockchain" else "⚠ Not Verified"

/-- JavaScript `s.substring(0, 32)`: the first 32 characters. -/
def jsSubstring32 (s : String) : String := String.mk (s.toList.take 32)

/-- From `Employer.tsx` lines 75-79: the blockchain-hash line is rendered
only when `r.proof` is present (`{r.proof && (...)}`); inside it,
`r.proof.hash?.substring(0, 32)` renders the first 32 characters of the
hash, or nothing when `hash` is absent, followed by the literal `...`. -/
def hashLine (r : SearchResult) : Option String :=
  r.proof.map (fun p =>
    "Blockchain Hash: " ++ (match p.hash with
      | some h => jsSubstring32 h
      | none => "") ++ "...")

/-- Fixed-width big-endian hexadecimal rendering of a natural number. -/
def hexFixed : Nat → Nat → List Char
  | 0, _ => []
  | k + 1, n => Nat.digitChar (n / 16 ^ k % 16) :: hexFixed k n

/-- A fingerprint rendered as a 64-character hex string for display. -/
def hashString (f : Nat) : String := String.mk (hexFixed 64 f)

/-- Modelled from the spec: the search/list endpoint (§6) is not in the
repository sources.  For each matching student credential it returns the
record plus a `verified` boolean — the Verifier's Verified/not-Verified
outcome — and a `proof.hash` carrying the Fingerprint for display. -/
def searchEndpoint (s : LedgerState)
    (items : List (Student × CredentialRecord × VerificationToken)) : List SearchResult :=
  items.map (fun it =>
    ⟨it.1, .jbool (decide (verify s it.2.1 it.2.2 = .Verified)),
      some ⟨some (hashString (credFingerprint it.2.1))⟩⟩)

/-- Concrete student for the C8 witness. -/
def demoStudent : Student := ⟨"s1", []⟩

/-- Concrete endpoint input for the C8 witness. -/
def demoItems : List (Student × CredentialRecord × VerificationToken) :=
  [(demoStudent, aliceRecord, demoToken)]

/-- The single result the modelled endpoint returns on `demoItems`. -/
def demoResult : SearchResult :=
  ⟨demoStudent, .jbool (decide (verify initialLedger aliceRecord demoToken = .Verified)),
    some ⟨some (hashString (credFingerprint aliceRecord))⟩⟩

theorem fingerprint_foldl_lt (l : Bytes) :
    ∀ a : Nat, a < 2 ^ 256 →
      l.foldl (fun a x => (a * 16777619 + x + 1) % 2 ^ 256) a < 2 ^ 256 := by
  induction l with
  | nil => intro a ha; simpa using ha
  | cons x xs ih =>
      intro a _
      simp only [List.foldl_cons]
      exact ih _ (Nat.mod_lt _ (by positivity))

theorem fingerprint_lt (b : Bytes) : fingerprint b < 2 ^ 256 :=
  fingerprint_foldl_lt b 2166136261 (by norm_num)

theorem natFixed_length (k n : Nat) : (natFixed k n).length = k := by
  induction k generalizing n with
  | zero => rfl
  | succ k ih => simp [natFixed, ih]

theorem fromBytesLE_natFixed (k : Nat) :
    ∀ n : Nat, n < 256 ^ k → fromBytesLE (natFixed k n) = n := by
  induction k with
  | zero => intro n hn; interval_cases n; rfl
  | succ k ih =>
      intro n hn
      have hdiv : n / 256 < 256 ^ k := by
        rw [Nat.div_lt_iff_lt_mul (by norm_num)]
        calc n < 256 ^ (k + 1) := hn
        _ = 256 ^ k * 256 := by ring
      simp only [natFixed, fromBytesLE, ih _ hdiv]
      omega

theorem natFixed_fromBytesLE :
    ∀ l : Bytes, (∀ b ∈ l, b < 256) → natFixed l.length (fromBytesLE l) = l := by
  intro l
  induction l with
  | nil => intro _; rfl
  | cons b rest ih =>
      intro hb
      have hb0 : b < 256 := hb b (by simp)
      have hrest : ∀ x ∈ rest, x < 256 := fun x hx => hb x (by simp [hx])
      simp only [List.length_cons, natFixed, fromBytesLE]
      have h1 : (b + 256 * fromBytesLE rest) % 256 = b := by omega
      have h2 : (b + 256 * fromBytesLE rest) / 256 = fromBytesLE rest := by omega
      rw [h1, h2, ih hrest]

theorem fromBytesLE_lt :
    ∀ l : Bytes, (∀ b ∈ l, b < 256) → fromBytesLE l < 256 ^ l.length := by
  intro l
  induction l with
  | nil => intro _; simp [fromBytesLE]
  | cons b rest ih =>
      intro hb
      have hb0 : b < 256 := hb b (by simp)
      have hrest := ih (fun x hx => hb x (by simp [hx]))
      simp only [fromBytesLE, List.length_cons, pow_succ]
      calc b + 256 * fromBytesLE rest < 256 + 256 * fromBytesLE rest := by omega
      _ ≤ 256 ^ rest.length * 256 := by nlinarith
      _ = 256 ^ rest.length * 256 := rfl

theorem natFixed_bytes_lt (k n : Nat) : ∀ b ∈ natFixed k n, b < 256 := by
  induction k generalizing n with
  | zero => simp [natFixed]
  | succ k ih =>
      intro b hb
      simp only [natFixed, List.mem_cons] at hb
      rcases hb with h | h
      · omega
      · exact ih _ b h

theorem natFixed_inj (k : Nat) {m n : Nat} (hm : m < 256 ^ k) (hn : n < 256 ^ k)
    (h : natFixed k m = natFixed k n) : m = n := by
  have := congrArg fromBytesLE h
  rwa [fromBytesLE_natFixed k m hm, fromBytesLE_natFixed k n hn] at this

theorem natFixed_append_inj (k : Nat) {m n : Nat} {x y : Bytes}
    (hm : m < 256 ^ k) (hn : n < 256 ^ k)
    (h : natFixed k m ++ x = natFixed k n ++ y) : m = n ∧ x = y := by
  have hlen : (natFixed k m).length = (natFixed k n).length := by
    rw [natFixed_length, natFixed_length]
  obtain ⟨h1, h2⟩ := List.append_inj h hlen
  exact ⟨natFixed_inj k hm hn h1, h2⟩

theorem encBytes_append_inj {a b : Bytes} {x y : Bytes}
    (ha : a.length < 2 ^ 32) (hb : b.length < 2 ^ 32)
    (h : encBytes a ++ x = encBytes b ++ y) : a = b ∧ x = y := by
  unfold encBytes at h
  rw [List.append_assoc, List.append_assoc] at h
  obtain ⟨hlen, h2⟩ := natFixed_append_inj 4 (by norm_num at ha ⊢; omega)
    (by norm_num at hb ⊢; omega) h
  exact List.append_inj h2 hlen

theorem insertAttr_length (a : Bytes × AttrValue) :
    ∀ l, (insertAttr a l).length = l.length + 1 := by
  intro l
  induction l with
  | nil => rfl
  | cons b rest ih =>
      by_cases h : bytesLE a.1 b.1 = true
      · simp [insertAttr, h]
      · simp [insertAttr, h, ih]

theorem sortAttrs_length (l : List (Bytes × AttrValue)) :
    (sortAttrs l).length = l.length := by
  induction l with
  | nil => rfl
  | cons a rest ih => simp [sortAttrs, insertAttr_length, ih]

theorem mem_insertAttr (a x : Bytes × AttrValue) :
    ∀ l, x ∈ insertAttr a l → x = a ∨ x ∈ l := by
  intro l
  induction l with
  | nil => simp [insertAttr]
  | cons b rest ih =>
      intro hx
      by_cases h : bytesLE a.1 b.1 = true
      · simp only [insertAttr, h, if_true, List.mem_cons] at hx
        simp only [List.mem_cons]
        tauto
      · simp [insertAttr, h, List.mem_cons] at hx
        simp only [List.mem_cons]
        rcases hx with h1 | h1
        · tauto
        · rcases ih h1 with h2 | h2 <;> tauto

theorem mem_sortAttrs (x : Bytes × AttrValue) :
    ∀ l, x ∈ sortAttrs l → x ∈ l := by
  intro l
  induction l with
  | nil => simp [sortAttrs]
  | cons a rest ih =>
      intro hx
      rcases mem_insertAttr a x (sortAttrs rest) hx with h | h
      · simp [h]
      · simp [ih h]

theorem encValue_append_inj {v w : AttrValue} {x y : Bytes}
    (hv : wfValue v = true) (hw : wfValue w = true)
    (h : encValue v ++ x = encValue w ++ y) : v = w ∧ x = y := by
  cases v <;> cases w <;>
    simp only [encValue, List.cons_append, List.cons.injEq] at h <;>
    try omega
  case vstr.vstr s t =>
    simp only [wfValue, decide_eq_true_eq] at hv hw
    obtain ⟨hst, hxy⟩ := encBytes_append_inj hv hw h.2
    exact ⟨by rw [hst], hxy⟩
  case vint.vint i j =>
    simp only [wfValue, decide_eq_true_eq] at hv hw
    obtain ⟨hsign, h2⟩ := h.2
    obtain ⟨habs, hxy⟩ := natFixed_append_inj 8 (by simpa using hv) (by simpa using hw) h2
    refine ⟨?_, hxy⟩
    by_cases hi : i < 0 <;> by_cases hj : j < 0 <;> simp [hi, hj] at hsign ⊢ <;> omega
  case vts.vts s t =>
    obtain ⟨hst, hxy⟩ := natFixed_append_inj 8
      (by simpa [wfValue] using hv) (by simpa [wfValue] using hw) h.2
    exact ⟨by rw [hst], hxy⟩

theorem encAttr_append_inj {a b : Bytes × AttrValue} {x y : Bytes}
    (ha : wfAttr a = true) (hb : wfAttr b = true)
    (h : encAttr a ++ x = encAttr b ++ y) : a = b ∧ x = y := by
  simp only [wfAttr, Bool.and_eq_true, decide_eq_true_eq] at ha hb
  unfold encAttr at h
  rw [List.append_assoc, List.append_assoc] at h
  obtain ⟨hk, h2⟩ := encBytes_append_inj ha.1 hb.1 h
  obtain ⟨hv, hxy⟩ := encValue_append_inj ha.2 hb.2 h2
  exact ⟨Prod.ext hk hv, hxy⟩

theorem encAttrFlatten_inj :
    ∀ (l1 l2 : List (Bytes × AttrValue)) (x y : Bytes),
      l1.length = l2.length →
      (∀ a ∈ l1, wfAttr a = true) → (∀ a ∈ l2, wfAttr a = true) →
      (l1.map encAttr).flatten ++ x = (l2.map encAttr).flatten ++ y →
      l1 = l2 ∧ x = y := by
  intro l1
  induction l1 with
  | nil =>
      intro l2 x y hlen _ _ h
      cases l2 with
      | nil => simpa using h
      | cons b t => simp at hlen
  | cons a t1 ih =>
      intro l2 x y hlen h1 h2 h
      cases l2 with
      | nil => simp at hlen
      | cons b t2 =>
          simp only [List.map_cons, List.flatten_cons, List.append_assoc] at h
          obtain ⟨hab, h3⟩ := encAttr_append_inj (h1 a (by simp)) (h2 b (by simp)) h
          obtain ⟨ht, hxy⟩ := ih t2 x y (by simpa using hlen)
            (fun c hc => h1 c (by simp [hc])) (fun c hc => h2 c (by simp [hc])) h3
          exact ⟨by rw [hab, ht], hxy⟩

theorem encAttrList_append_inj {l1 l2 : List (Bytes × AttrValue)} {x y : Bytes}
    (hc1 : l1.length < 2 ^ 32) (hc2 : l2.length < 2 ^ 32)
    (h1 : ∀ a ∈ l1, wfAttr a = true) (h2 : ∀ a ∈ l2, wfAttr a = true)
    (h : encAttrList l1 ++ x = encAttrList l2 ++ y) : l1 = l2 ∧ x = y := by
  unfold encAttrList at h
  rw [List.append_assoc, List.append_assoc] at h
  obtain ⟨hlen, h3⟩ := natFixed_append_inj 4 (by norm_num at hc1 ⊢; omega)
    (by norm_num at hc2 ⊢; omega) h
  exact encAttrFlatten_inj l1 l2 x y hlen h1 h2 h3

theorem rawEncode_inj {r1 r2 : CredentialRecord}
    (hw1 : wfRecord r1 = true) (hw2 : wfRecord r2 = true)
    (ha1 : ∀ a ∈ r1.attrs, wfAttr a = true) (ha2 : ∀ a ∈ r2.attrs, wfAttr a = true)
    (h : rawEncode r1 = rawEncode r2) : r1 = r2 := by
  simp only [wfRecord, Bool.and_eq_true, decide_eq_true_eq] at hw1 hw2
  obtain ⟨⟨⟨⟨⟨hi1, hsj1⟩, hc1⟩, -⟩, ht1⟩, hv1⟩ := hw1
  obtain ⟨⟨⟨⟨⟨hi2, hsj2⟩, hc2⟩, -⟩, ht2⟩, hv2⟩ := hw2
  have h' : rawEncode r1 ++ [] = rawEncode r2 ++ [] := by rw [h]
  unfold rawEncode at h'
  rw [List.append_assoc, List.append_assoc, List.append_assoc, List.append_assoc,
    List.append_assoc, List.append_assoc, List.append_assoc, List.append_assoc] at h'
  obtain ⟨hiss, h'⟩ := encBytes_append_inj hi1 hi2 h'
  obtain ⟨hsub, h'⟩ := encBytes_append_inj hsj1 hsj2 h'
  obtain ⟨hattrs, h'⟩ := encAttrList_append_inj hc1 hc2 ha1 ha2 h'
  obtain ⟨hts, h'⟩ := natFixed_append_inj 8 (by norm_num at ht1 ⊢; omega)
    (by norm_num at ht2 ⊢; omega) h'
  obtain ⟨hver, -⟩ := natFixed_append_inj 4 (by norm_num at hv1 ⊢; omega)
    (by norm_num at hv2 ⊢; omega) h'
  cases r1; cases r2
  simp_all

theorem level_length : ∀ l : List Nat, (level l).length = (l.length + 1) / 2
  | [] => by simp [level]
  | [a] => by simp [level]
  | a :: b :: rest => by
      simp only [level, List.length_cons, level_length rest]
      omega

theorem level_getD_pair : ∀ (l : List Nat) (j : Nat), 2 * j + 1 < l.length →
    (level l).getD j 0 = hashPair (l.getD (2 * j) 0) (l.getD (2 * j + 1) 0)
  | [], j, h => by simp at h
  | [a], j, h => by simp at h
  | a :: b :: rest, 0, h => by simp [level]
  | a :: b :: rest, j + 1, h => by
      have h' : 2 * j + 1 < rest.length := by simp at h; omega
      have ih := level_getD_pair rest j h'
      show (hashPair a b :: level rest).getD (j + 1) 0 = _
      rw [List.getD_cons_succ]
      have g1 : (a :: b :: rest).getD (2 * (j + 1)) 0 = rest.getD (2 * j) 0 := by
        have e : 2 * (j + 1) = 2 * j + 1 + 1 := by omega
        rw [e, List.getD_cons_succ, List.getD_cons_succ]
      have g2 : (a :: b :: rest).getD (2 * (j + 1) + 1) 0 = rest.getD (2 * j + 1) 0 := by
        have e : 2 * (j + 1) + 1 = 2 * j + 1 + 1 + 1 := by omega
        rw [e, List.getD_cons_succ, List.getD_cons_succ]
      rw [g1, g2]
      exact ih

theorem level_getD_last : ∀ (l : List Nat) (j : Nat), 2 * j + 1 = l.length →
    (level l).getD j 0 = hashPair (l.getD (2 * j) 0) (l.getD (2 * j) 0)
  | [], j, h => by simp at h
  | [a], 0, h => by simp [level]
  | [a], j + 1, h => by simp at h
  | a :: b :: rest, 0, h => by simp at h
  | a :: b :: rest, j + 1, h => by
      have h' : 2 * j + 1 = rest.length := by simp at h; omega
      have ih := level_getD_last rest j h'
      show (hashPair a b :: level rest).getD (j + 1) 0 = _
      rw [List.getD_cons_succ]
      have g1 : (a :: b :: rest).getD (2 * (j + 1)) 0 = rest.getD (2 * j) 0 := by
        have e : 2 * (j + 1) = 2 * j + 1 + 1 := by omega
        rw [e, List.getD_cons_succ, List.getD_cons_succ]
      rw [g1]
      exact ih

theorem replayPath_buildPathAux :
    ∀ (fuel : Nat) (l : List Nat) (i : Nat), l.length ≤ fuel → i < l.length →
      replayPath (l.getD i 0) (buildPathAux fuel l i) = merkleAux fuel l := by
  intro fuel
  induction fuel with
  | zero => intro l i hf hi; omega
  | succ fuel ih =>
      intro l i hf hi
      by_cases hshort : l.length ≤ 1
      · have h1 : l.length = 1 := by omega
        obtain ⟨a, ha⟩ : ∃ a, l = [a] := by
          cases l with
          | nil => simp at h1
          | cons x t => cases t with
            | nil => exact ⟨x, rfl⟩
            | cons y t2 => simp at h1
        have hi0 : i = 0 := by omega
        subst ha hi0
        simp [buildPathAux, replayPath, merkleAux]
      · obtain ⟨a, b, rest, hl⟩ : ∃ a b rest, l = a :: b :: rest := by
          cases l with
          | nil => simp at hshort
          | cons x t => cases t with
            | nil => simp at hshort
            | cons y t2 => exact ⟨x, y, t2, rfl⟩
        have hstep : buildPathAux (fuel + 1) l i =
            (decide (i % 2 = 1), siblingAt l i) :: buildPathAux fuel (level l) (i / 2) := by
          rw [buildPathAux]
          simp [hshort]
        have hmerk : merkleAux (fuel + 1) l = merkleAux fuel (level l) := by
          rw [hl]; rfl
        have hlev_len : (level l).length = (l.length + 1) / 2 := level_length l
        have hcomb :
            (if (decide (i % 2 = 1)) = true then hashPair (siblingAt l i) (l.getD i 0)
              else hashPair (l.getD i 0) (siblingAt l i)) = (level l).getD (i / 2) 0 := by
          by_cases hpar : i % 2 = 1
          · have e0 : 2 * (i / 2) = i - 1 := by omega
            have e1 : 2 * (i / 2) + 1 = i := by omega
            rw [level_getD_pair l (i / 2) (by omega), e1, e0]
            have hsib : siblingAt l i = l.getD (i - 1) 0 := by
              unfold siblingAt
              rw [if_neg (by omega)]
            rw [hsib]
            simp [hpar]
          · have hpar0 : i % 2 = 0 := by omega
            have e0 : 2 * (i / 2) = i := by omega
            by_cases hlast : i + 1 < l.length
            · rw [level_getD_pair l (i / 2) (by omega), e0]
              have hsib : siblingAt l i = l.getD (i + 1) 0 := by
                unfold siblingAt
                rw [if_pos hpar0, if_pos hlast]
              rw [hsib]
              simp [hpar]
            · have hend : 2 * (i / 2) + 1 = l.length := by omega
              rw [level_getD_last l (i / 2) hend, e0]
              have hsib : siblingAt l i = l.getD i 0 := by
                unfold siblingAt
                rw [if_pos hpar0, if_neg hlast]
              rw [hsib]
              simp [hpar]
        have hrec := ih (level l) (i / 2) (by omega) (by omega)
        rw [hstep, hmerk, ← hrec]
        have hunf : replayPath (l.getD i 0)
            ((decide (i % 2 = 1), siblingAt l i) :: buildPathAux fuel (level l) (i / 2)) =
            replayPath (if (decide (i % 2 = 1)) = true then hashPair (siblingAt l i) (l.getD i 0)
              else hashPair (l.getD i 0) (siblingAt l i)) (buildPathAux fuel (level l) (i / 2)) := rfl
        rw [hunf, hcomb]

theorem replayPath_buildPath (l : List Nat) (i : Nat) (hi : i < l.length) :
    replayPath (l.getD i 0) (buildPath l i) = merkleRoot l :=
  replayPath_buildPathAux l.length l i (le_refl _) hi

theorem chainOk_append_one :
    ∀ (l : List Batch) (g : Nat) (b : Batch), chainOk g l →
      b.previousRoot = (match l.getLast? with
        | some c => c.merkleRoot
        | none => g) →
      chainOk g (l ++ [b]) := by
  intro l
  induction l with
  | nil =>
      intro g b _ hb
      simp only [List.nil_append, chainOk]
      exact ⟨by simpa using hb, trivial⟩
  | cons c rest ih =>
      intro g b hc hb
      obtain ⟨h1, h2⟩ := hc
      refine ⟨h1, ih c.merkleRoot b h2 ?_⟩
      cases rest with
      | nil => simpa using hb
      | cons d t => simpa using hb

theorem wfLedger_append (s : LedgerState) (f : Nat) (h : WFLedger s) :
    WFLedger (append s f).1 := by
  obtain ⟨h1, h2, h3, h4⟩ := h
  refine ⟨h1, h2, h3, ?_⟩
  simp only [append, allEntries] at h4 ⊢
  rw [← List.append_assoc, List.map_append, h4]
  simp [List.range_succ]

theorem wfLedger_close (s : LedgerState) (t : Nat) (h : WFLedger s) :
    WFLedger (close_batch s t).1 := by
  obtain ⟨h1, h2, h3, h4⟩ := h
  by_cases hemp : s.openEntries.isEmpty
  · have hstate : (close_batch s t).1 = s := by
      unfold close_batch
      rw [if_pos hemp]
    rw [hstate]
    exact ⟨h1, h2, h3, h4⟩
  · have hstate : (close_batch s t).1 = LedgerState.mk
        (s.closed ++ [Batch.mk s.openBatchId s.openEntries
          (merkleRoot (s.openEntries.map LedgerEntry.fp)) (lastRoot s) t])
        [] s.nextSeq (s.openBatchId + 1) := by
      unfold close_batch
      rw [if_neg hemp]
    rw [hstate]
    refine ⟨?_, ?_, ?_, ?_⟩
    · intro b hb
      dsimp only at hb
      rcases List.mem_append.mp hb with hmem | hmem
      · exact h1 b hmem
      · have hb' : b = Batch.mk s.openBatchId s.openEntries
            (merkleRoot (s.openEntries.map LedgerEntry.fp)) (lastRoot s) t := by
          simpa using hmem
        subst hb'
        refine ⟨rfl, ?_⟩
        intro hnil
        have hoe : s.openEntries = [] := hnil
        rw [hoe] at hemp
        simp at hemp
    · show List.map Batch.id (s.closed ++ [Batch.mk s.openBatchId s.openEntries
          (merkleRoot (s.openEntries.map LedgerEntry.fp)) (lastRoot s) t]) =
        List.range (s.openBatchId + 1)
      rw [List.map_append, h2, List.range_succ]
      rfl
    · show chainOk genesisRoot (s.closed ++ [Batch.mk s.openBatchId s.openEntries
        (merkleRoot (s.openEntries.map LedgerEntry.fp)) (lastRoot s) t])
      refine chainOk_append_one s.closed genesisRoot _ h3 ?_
      unfold lastRoot
      cases hL : s.closed.getLast? with
      | none => simp
      | some c => simp
    · have hsame : allEntries (LedgerState.mk
          (s.closed ++ [Batch.mk s.openBatchId s.openEntries
            (merkleRoot (s.openEntries.map LedgerEntry.fp)) (lastRoot s) t])
          [] s.nextSeq (s.openBatchId + 1)) = allEntries s := by
        simp [allEntries]
      show List.map LedgerEntry.seq (allEntries (LedgerState.mk
          (s.closed ++ [Batch.mk s.openBatchId s.openEntries
            (merkleRoot (s.openEntries.map LedgerEntry.fp)) (lastRoot s) t])
          [] s.nextSeq (s.openBatchId + 1))) = List.range s.nextSeq
      rw [hsame, h4]

theorem reachable_wfLedger {s : LedgerState} (h : Reachable s) : WFLedger s := by
  induction h with
  | init =>
      refine ⟨?_, ?_, ?_, ?_⟩ <;> simp [initialLedger, allEntries, chainOk]
  | app f _ ih => exact wfLedger_append _ f ih
  | close t _ ih => exact wfLedger_close _ t ih

theorem find_by_id :
    ∀ (l : List Batch) (b : Batch), b ∈ l → (l.map Batch.id).Nodup →
      l.find? (fun x => x.id == b.id) = some b := by
  intro l
  induction l with
  | nil => intro b hb; simp at hb
  | cons c rest ih =>
      intro b hb hn
      simp only [List.map_cons, List.nodup_cons] at hn
      by_cases hc : c.id = b.id
      · have hbc : b = c := by
          rcases List.mem_cons.mp hb with h | h
          · exact h
          · exact absurd (by rw [hc]; exact List.mem_map_of_mem Batch.id h) hn.1
        rw [List.find?_cons_of_pos _ (by simp [hc])]
        rw [hbc]
      · have hbr : b ∈ rest := by
          rcases List.mem_cons.mp hb with h | h
          · exact absurd (by rw [h]) hc
          · exact h
        rw [List.find?_cons_of_neg _ (by simp [hc])]
        exact ih b hbr hn.2

/-- C1 helper: whenever a fingerprint sits in some closed batch, the closed
batch search of `build_proof` succeeds and returns a batch containing it. -/
theorem closed_search_found (s : LedgerState) (f : Nat)
    (hin : f ∈ closedFps s) :
    ∃ b, s.closed.find? (fun b => (leavesOf b).contains f) = some b ∧
      b ∈ s.closed ∧ f ∈ leavesOf b := by
  obtain ⟨lv, hlv, hflv⟩ := List.mem_flatten.mp hin
  obtain ⟨b0, hb0, rfl⟩ := List.mem_map.mp hlv
  have hsome : (s.closed.find? (fun b => (leavesOf b).contains f)).isSome :=
    List.find?_isSome.mpr ⟨b0, hb0, by simpa using hflv⟩
  obtain ⟨b, hb⟩ := Option.isSome_iff_exists.mp hsome
  refine ⟨b, hb, List.mem_of_find?_eq_some hb, ?_⟩
  have := List.find?_some hb
  simpa using this

/-- Establishes `Verified` for a token as packed by `issue`, generic in the
fingerprint value (spec §4.6 steps 1-6). -/
theorem issued_token_verifies (s : LedgerState) (credId : Bytes) (r : CredentialRecord)
    (F : Nat) (hF : credFingerprint r = F) (b : Batch) (pth : List (Bool × Nat))
    (hget : get_batch s b.id = some b)
    (hrep : replayPath F pth = b.merkleRoot) :
    verify s r ⟨1, credId, F, ⟨F, pth, b.id, chainFor s b.id⟩,
      sign (sigPayload credId F b.id)⟩ = .Verified := by
  unfold verify
  rw [hF]
  simp only [hget]
  simp [hrep]

set_option maxRecDepth 8192 in
/-- C1: Inclusion soundness round trip — for every fingerprint that has been
appended to the ledger and is included in a closed batch (of any reachable
ledger state), `build_proof` (driven through `issue`) succeeds, and replaying
the returned inclusion proof's sibling path (the Verifier's step 3) against
that batch's recorded Merkle root succeeds; consequently the genuinely issued
credential verifies as Verified. -/
theorem inclusion_soundness (s : LedgerState) (credId : Bytes) (r : CredentialRecord)
    (hs : Reachable s) (hin : credFingerprint r ∈ closedFps s) :
    ∃ (t : VerificationToken) (b : Batch),
      issue s credId r = some t ∧
      get_batch s t.proof.batchId = some b ∧
      replayPath (credFingerprint r) t.proof.siblingPath = b.merkleRoot ∧
      verify s r t = .Verified := by
  obtain ⟨hw1, hw2, hw3, hw4⟩ := reachable_wfLedger hs
  obtain ⟨b, hfind, hbmem, hfleaf⟩ := closed_search_found s (credFingerprint r) hin
  have hidx : (leavesOf b).indexOf (credFingerprint r) < (leavesOf b).length :=
    List.indexOf_lt_length.mpr hfleaf
  have hgetD : (leavesOf b).getD ((leavesOf b).indexOf (credFingerprint r)) 0 =
      credFingerprint r := by
    rw [List.getD_eq_getElem (leavesOf b) 0 hidx]
    exact List.indexOf_get hidx
  have hbp : build_proof s (credFingerprint r) = some ⟨credFingerprint r,
      buildPath (leavesOf b) ((leavesOf b).indexOf (credFingerprint r)), b.id,
      chainFor s b.id⟩ := by
    unfold build_proof
    rw [hfind]
  have hiss : issue s credId r = some ⟨1, credId, credFingerprint r,
      ⟨credFingerprint r, buildPath (leavesOf b) ((leavesOf b).indexOf (credFingerprint r)),
        b.id, chainFor s b.id⟩,
      sign (sigPayload credId (credFingerprint r) b.id)⟩ := by
    unfold issue
    rw [hbp]
  have hget : get_batch s b.id = some b := by
    unfold get_batch
    exact find_by_id s.closed b hbmem (by rw [hw2]; exact List.nodup_range _)
  have hrep : replayPath (credFingerprint r)
      (buildPath (leavesOf b) ((leavesOf b).indexOf (credFingerprint r))) = b.merkleRoot := by
    have h0 := replayPath_buildPath (leavesOf b) ((leavesOf b).indexOf (credFingerprint r)) hidx
    rw [hgetD] at h0
    rw [h0]
    exact ((hw1 b hbmem).1).symm
  refine ⟨_, b, hiss, hget, hrep,
    issued_token_verifies s credId r (credFingerprint r) rfl b _ hget hrep⟩

/-- C2: Verifier verdict ordering — `verify` first recomputes the fingerprint
of the presented record (spec §4.6 step 1), and whenever it differs from the
token's Fingerprint the verdict is TamperedData, before and instead of any
BrokenChain or InvalidSignature outcome (steps 3-5 are never reached). -/
theorem verifier_tampered_first (s : LedgerState) (r : CredentialRecord)
    (t : VerificationToken) (h : credFingerprint r ≠ t.fp) :
    verify s r t = .TamperedData := by
  unfold verify
  rw [if_pos h]

/-- C3: Fingerprint determinism — any two evaluations of
`fingerprint (encode r)` on the same record give the same result, and that
result is a 32-byte quantity (below `2 ^ 256`).  In this embedding
`fingerprint` is a pure stateless function of its input bytes, so stability
across calls and process restarts is structural. -/
theorem fingerprint_deterministic (r : CredentialRecord) (b1 b2 : Bytes)
    (h1 : encode r = some b1) (h2 : encode r = some b2) :
    fingerprint b1 = fingerprint b2 ∧ fingerprint b1 < 2 ^ 256 := by
  have hb : b1 = b2 := by
    rw [h1] at h2
    exact Option.some.inj h2
  exact ⟨by rw [hb], fingerprint_lt b1⟩

theorem wfRecord_canon {r : CredentialRecord} (h : wfRecord r = true) :
    wfRecord (canon r) = true := by
  simp only [wfRecord, canon, Bool.and_eq_true, decide_eq_true_eq, List.all_eq_true] at h ⊢
  obtain ⟨⟨⟨⟨⟨h1, h2⟩, h3⟩, h4⟩, h5⟩, h6⟩ := h
  refine ⟨⟨⟨⟨⟨h1, h2⟩, ?_⟩, ?_⟩, h5⟩, h6⟩
  · rw [sortAttrs_length]
    exact h3
  · intro a ha
    exact h4 a (mem_sortAttrs a r.attrs ha)

theorem wfRecord_attrs {r : CredentialRecord} (h : wfRecord r = true) :
    ∀ a ∈ r.attrs, wfAttr a = true := by
  simp only [wfRecord, Bool.and_eq_true, decide_eq_true_eq, List.all_eq_true] at h
  intro a ha
  have := h.1.1.2 a ha
  simpa [wfAttr] using this

/-- C4: Canonical encoder injectivity — two records that both encode
successfully to the same byte string are semantically equal (equal after
canonicalization); equivalently, records differing in attribute sets or
values never share a canonical encoding.  The size bounds `wfRecord` make the
fixed-width length prefixes unambiguous. -/
theorem encode_injective (r1 r2 : CredentialRecord)
    (hw1 : wfRecord r1 = true) (hw2 : wfRecord r2 = true)
    (heq : encode r1 = encode r2) (hs : (encode r1).isSome = true) : semEq r1 r2 := by
  unfold encode at heq hs
  by_cases hk1 : r1.attrs.all (fun a => !a.1.isEmpty)
  · rw [if_pos hk1] at heq hs
    by_cases hk2 : r2.attrs.all (fun a => !a.1.isEmpty)
    · rw [if_pos hk2] at heq
      have hraw : rawEncode (canon r1) = rawEncode (canon r2) := Option.some.inj heq
      show canon r1 = canon r2
      exact rawEncode_inj (wfRecord_canon hw1) (wfRecord_canon hw2)
        (wfRecord_attrs (wfRecord_canon hw1)) (wfRecord_attrs (wfRecord_canon hw2)) hraw
    · rw [if_neg hk2] at heq
      exact absurd heq (by simp)
  · rw [if_neg hk1] at hs
    simp at hs

theorem chainOk_head (l : List Batch) (g : Nat) (hc : chainOk g l) :
    ∀ h0 : 0 < l.length, (l.get ⟨0, h0⟩).previousRoot = g := by
  intro h0
  cases l with
  | nil => simp at h0
  | cons b rest => exact hc.1

theorem chainOk_succ : ∀ (l : List Batch) (g : Nat), chainOk g l →
    ∀ (i : Nat) (h : i + 1 < l.length),
      (l.get ⟨i + 1, h⟩).previousRoot = (l.get ⟨i, by omega⟩).merkleRoot := by
  intro l
  induction l with
  | nil => intro g _ i h; simp at h
  | cons b rest ih =>
      intro g hc i h
      cases i with
      | zero =>
          cases rest with
          | nil => simp at h
          | cons c t => exact hc.2.1
      | succ j =>
          have hlt : j + 1 < rest.length := by simp at h; omega
          have := ih b.merkleRoot hc.2 j hlt
          simpa using this

/-- C5: Batch chain linkage invariant — in every reachable ledger state,
`batch[0].previous_root` is the genesis constant and
`batch[i+1].previous_root = batch[i].merkle_root`; moreover the chain
predicate is preserved by `append` and `close_batch` (and `get_batch` is
read-only, returning a value without touching the state). -/
theorem batch_chain_linkage (s : LedgerState) (hs : Reachable s) :
    (∀ h0 : 0 < s.closed.length, (s.closed.get ⟨0, h0⟩).previousRoot = genesisRoot) ∧
    (∀ (i : Nat) (h : i + 1 < s.closed.length),
      (s.closed.get ⟨i + 1, h⟩).previousRoot =
        (s.closed.get ⟨i, by omega⟩).merkleRoot) ∧
    (∀ f : Nat, chainOk genesisRoot ((append s f).1).closed) ∧
    (∀ t : Nat, chainOk genesisRoot ((close_batch s t).1).closed) := by
  have hchain := (reachable_wfLedger hs).2.2.1
  refine ⟨chainOk_head s.closed genesisRoot hchain,
    chainOk_succ s.closed genesisRoot hchain, ?_, ?_⟩
  · intro f
    exact (reachable_wfLedger (Reachable.app f hs)).2.2.1
  · intro t
    exact (reachable_wfLedger (Reachable.close t hs)).2.2.1

theorem allEntries_close (s : LedgerState) (t : Nat) :
    allEntries (close_batch s t).1 = allEntries s := by
  by_cases hemp : s.openEntries.isEmpty
  · have hstate : (close_batch s t).1 = s := by
      unfold close_batch
      rw [if_pos hemp]
    rw [hstate]
  · have hstate : (close_batch s t).1 = LedgerState.mk
        (s.closed ++ [Batch.mk s.openBatchId s.openEntries
          (merkleRoot (s.openEntries.map LedgerEntry.fp)) (lastRoot s) t])
        [] s.nextSeq (s.openBatchId + 1) := by
      unfold close_batch
      rw [if_neg hemp]
    rw [hstate]
    simp [allEntries]

theorem allEntries_append (s : LedgerState) (f : Nat) :
    allEntries (append s f).1 = allEntries s ++ [⟨f, s.nextSeq, s.openBatchId⟩] := by
  simp [allEntries, append]

/-- C6: Sequence-number discipline — in every reachable state the sequence
numbers of all entries, in ledger order, are exactly `0, ..., nextSeq - 1`
(strictly increasing, gap-free, never reused); each `append` assigns the next
fresh number at the end, and `close_batch` never reorders entries. -/
theorem seq_discipline (s : LedgerState) (hs : Reachable s) :
    (allEntries s).map LedgerEntry.seq = List.range s.nextSeq ∧
    (∀ t : Nat, allEntries (close_batch s t).1 = allEntries s) ∧
    (∀ f : Nat, (allEntries (append s f).1).map LedgerEntry.seq =
      List.range s.nextSeq ++ [s.nextSeq]) := by
  have h4 := (reachable_wfLedger hs).2.2.2
  refine ⟨h4, allEntries_close s, ?_⟩
  intro f
  rw [allEntries_append, List.map_append, h4]
  rfl

theorem demoState_reachable : Reachable demoState :=
  Reachable.close 7 (Reachable.app (credFingerprint aliceRecord) Reachable.init)

set_option maxRecDepth 100000 in
/-- Witness for C1 at the concrete ledger holding Alice's fingerprint in its
closed batch. -/
theorem inclusion_soundness_witness :
    ∃ (t : VerificationToken) (b : Batch),
      issue demoState [1] aliceRecord = some t ∧
      get_batch demoState t.proof.batchId = some b ∧
      replayPath (credFingerprint aliceRecord) t.proof.siblingPath = b.merkleRoot ∧
      verify demoState aliceRecord t = .Verified :=
  inclusion_soundness demoState [1] aliceRecord demoState_reachable (by decide)

set_option maxRecDepth 100000 in
/-- Witness for C2: presenting `{name: "Alice", degree: "M.Sc"}` against
Alice's genuine token yields TamperedData (Scenario B). -/
theorem verifier_tampered_first_witness :
    verify demoState mscRecord demoToken = .TamperedData :=
  verifier_tampered_first demoState mscRecord demoToken (by decide)

/-- Witness for C3 on Alice's record. -/
theorem fingerprint_deterministic_witness :
    fingerprint ((encode aliceRecord).getD []) = fingerprint ((encode aliceRecord).getD []) ∧
    fingerprint ((encode aliceRecord).getD []) < 2 ^ 256 :=
  fingerprint_deterministic aliceRecord _ _ rfl rfl

set_option maxRecDepth 100000 in
/-- Witness for C4: the two attribute orders of Alice's record encode to the
same bytes and are semantically equal. -/
theorem encode_injective_witness : semEq aliceRecord aliceSwapped :=
  encode_injective aliceRecord aliceSwapped (by decide) (by decide) (by decide) (by decide)

set_option maxRecDepth 100000 in
/-- Witness for C5 at the concrete ledger: the first closed batch links to
genesis. -/
theorem batch_chain_linkage_witness :
    (demoState.closed.get ⟨0, by decide⟩).previousRoot = genesisRoot :=
  (batch_chain_linkage demoState demoState_reachable).1 (by decide)

set_option maxRecDepth 100000 in
/-- Witness for C6 at the concrete ledger. -/
theorem seq_discipline_witness :
    (allEntries demoState).map LedgerEntry.seq = List.range demoState.nextSeq :=
  (seq_discipline demoState demoState_reachable).1

theorem readN_sound {n : Nat} {p a r : Bytes} (h : readN n p = some (a, r)) :
    p = a ++ r ∧ a.length = n := by
  unfold readN at h
  split at h
  · obtain ⟨ha, hr⟩ := Prod.mk.injEq .. |>.mp (Option.some.inj h)
    subst ha hr
    refine ⟨(List.take_append_drop n p).symm, ?_⟩
    rw [List.length_take]
    omega
  · exact absurd h (by simp)

theorem bytes_lt_of_append_left {a r : Bytes} (h : ∀ b ∈ a ++ r, b < 256) :
    ∀ b ∈ a, b < 256 :=
  fun b hb => h b (List.mem_append.mpr (Or.inl hb))

theorem bytes_lt_of_append_right {a r : Bytes} (h : ∀ b ∈ a ++ r, b < 256) :
    ∀ b ∈ r, b < 256 :=
  fun b hb => h b (List.mem_append.mpr (Or.inr hb))

theorem readPath_sound : ∀ (k : Nat) (p : Bytes) (l : List (Bool × Nat)) (r : Bytes),
    (∀ b ∈ p, b < 256) → readPath k p = some (l, r) →
    p = (l.map encPathEntry).flatten ++ r ∧ l.length = k ∧ ∀ e ∈ l, e.2 < 2 ^ 256 := by
  intro k
  induction k with
  | zero =>
      intro p l r hp h
      unfold readPath at h
      obtain ⟨hl, hr⟩ := Prod.mk.injEq .. |>.mp (Option.some.inj h)
      subst hl hr
      exact ⟨by simp, rfl, by simp⟩
  | succ k ih =>
      intro p l r hp h
      unfold readPath at h
      split at h
      · exact absurd h (by simp)
      · next chunk rest hread =>
          split at h
          · exact absurd h (by simp)
          · next d sib =>
              split at h
              · next hd =>
                  split at h
                  · exact absurd h (by simp)
                  · next l0 r0 hrec =>
                      obtain ⟨hl, hr⟩ := Prod.mk.injEq .. |>.mp (Option.some.inj h)
                      subst hl hr
                      obtain ⟨hp1, hlen33⟩ := readN_sound hread
                      have hsib32 : sib.length = 32 := by
                        simp at hlen33
                        omega
                      have hrest_lt : ∀ b ∈ rest, b < 256 := by
                        rw [hp1] at hp
                        exact bytes_lt_of_append_right hp
                      have hsib_lt : ∀ b ∈ sib, b < 256 := by
                        rw [hp1] at hp
                        have := bytes_lt_of_append_left hp
                        exact fun b hb => this b (by simp [hb])
                      obtain ⟨he1, he2, he3⟩ := ih rest l0 r0 hrest_lt hrec
                      have hentry : encPathEntry (d == 1, fromBytesLE sib) = d :: sib := by
                        unfold encPathEntry
                        have hfix : natFixed 32 (fromBytesLE sib) = sib := by
                          rw [← hsib32]
                          exact natFixed_fromBytesLE sib hsib_lt
                        interval_cases d <;> simp [hfix]
                      refine ⟨?_, by simp [he2], ?_⟩
                      · rw [hp1, he1, List.map_cons, List.flatten_cons, hentry]
                        simp
                      · intro e he
                        rcases List.mem_cons.mp he with h1 | h1
                        · subst h1
                          show fromBytesLE sib < 2 ^ 256
                          have := fromBytesLE_lt sib hsib_lt
                          rw [hsib32] at this
                          calc fromBytesLE sib < 256 ^ 32 := this
                          _ = 2 ^ 256 := by norm_num
                        · exact he3 e h1
              · exact absurd h (by simp)

theorem readRoots_sound : ∀ (k : Nat) (p : Bytes) (l : List Nat) (r : Bytes),
    (∀ b ∈ p, b < 256) → readRoots k p = some (l, r) →
    p = (l.map (natFixed 32)).flatten ++ r ∧ l.length = k ∧ ∀ a ∈ l, a < 2 ^ 256 := by
  intro k
  induction k with
  | zero =>
      intro p l r hp h
      unfold readRoots at h
      obtain ⟨hl, hr⟩ := Prod.mk.injEq .. |>.mp (Option.some.inj h)
      subst hl hr
      exact ⟨by simp, rfl, by simp⟩
  | succ k ih =>
      intro p l r hp h
      unfold readRoots at h
      split at h
      · exact absurd h (by simp)
      · next c rest hread =>
          split at h
          · exact absurd h (by simp)
          · next l0 r0 hrec =>
              obtain ⟨hl, hr⟩ := Prod.mk.injEq .. |>.mp (Option.some.inj h)
              subst hl hr
              obtain ⟨hp1, hlen32⟩ := readN_sound hread
              have hrest_lt : ∀ b ∈ rest, b < 256 := by
                rw [hp1] at hp
                exact bytes_lt_of_append_right hp
              have hc_lt : ∀ b ∈ c, b < 256 := by
                rw [hp1] at hp
                exact bytes_lt_of_append_left hp
              obtain ⟨he1, he2, he3⟩ := ih rest l0 r0 hrest_lt hrec
              have hfix : natFixed 32 (fromBytesLE c) = c := by
                rw [← hlen32]
                exact natFixed_fromBytesLE c hc_lt
              refine ⟨?_, by simp [he2], ?_⟩
              · rw [hp1, he1, List.map_cons, List.flatten_cons, hfix, List.append_assoc]
              · intro a ha
                rcases List.mem_cons.mp ha with h1 | h1
                · subst h1
                  have := fromBytesLE_lt c hc_lt
                  rw [hlen32] at this
                  calc fromBytesLE c < 256 ^ 32 := this
                  _ = 2 ^ 256 := by norm_num
                · exact he3 a h1

theorem fromBytes4_lt {bs : Bytes} (hl : bs.length = 4) (hb : ∀ b ∈ bs, b < 256) :
    fromBytesLE bs < 2 ^ 32 := by
  have h := fromBytesLE_lt bs hb
  rw [hl] at h
  calc fromBytesLE bs < 256 ^ 4 := h
  _ = 2 ^ 32 := by norm_num

theorem fromBytes32_lt {bs : Bytes} (hl : bs.length = 32) (hb : ∀ b ∈ bs, b < 256) :
    fromBytesLE bs < 2 ^ 256 := by
  have h := fromBytesLE_lt bs hb
  rw [hl] at h
  calc fromBytesLE bs < 256 ^ 32 := h
  _ = 2 ^ 256 := by norm_num

theorem natFixed_of_len {k : Nat} {bs : Bytes} (hl : bs.length = k)
    (hb : ∀ b ∈ bs, b < 256) : natFixed k (fromBytesLE bs) = bs := by
  rw [← hl]
  exact natFixed_fromBytesLE bs hb

theorem parseBody_sound (q : Bytes) (t : VerificationToken)
    (hq : ∀ b ∈ q, b < 256) (h : parseBody q = some t) :
    q = encodeBody t ∧ wfToken t = true := by
  unfold parseBody at h
  split at h
  · exact absurd h (by simp)
  next lenB r1 heq1 =>
  split at h
  · exact absurd h (by simp)
  next credId r2 heq2 =>
  split at h
  · exact absurd h (by simp)
  next fpB r3 heq3 =>
  split at h
  · exact absurd h (by simp)
  next bidB r4 heq4 =>
  split at h
  · exact absurd h (by simp)
  next leafB r5 heq5 =>
  split at h
  · exact absurd h (by simp)
  next plB r6 heq6 =>
  split at h
  · exact absurd h (by simp)
  next pth r7 heq7 =>
  split at h
  · exact absurd h (by simp)
  next clB r8 heq8 =>
  split at h
  · exact absurd h (by simp)
  next chain r9 heq9 =>
  split at h
  · exact absurd h (by simp)
  next sigB r10 heq10 =>
  split at h
  case _ =>
    obtain rfl := (Option.some.inj h).symm
    obtain ⟨hq1, hlen1⟩ := readN_sound heq1
    obtain ⟨hq2, hlenc⟩ := readN_sound heq2
    obtain ⟨hq3, hlen3⟩ := readN_sound heq3
    obtain ⟨hq4, hlen4⟩ := readN_sound heq4
    obtain ⟨hq5, hlen5⟩ := readN_sound heq5
    obtain ⟨hq6, hlen6⟩ := readN_sound heq6
    obtain ⟨hq8, hlen8⟩ := readN_sound heq8
    obtain ⟨hq10, hlen10⟩ := readN_sound heq10
    have hb0 := hq
    rw [hq1] at hb0
    have hbLen := bytes_lt_of_append_left hb0
    have hbr1 := bytes_lt_of_append_right hb0
    rw [hq2] at hbr1
    have hbCred := bytes_lt_of_append_left hbr1
    have hbr2 := bytes_lt_of_append_right hbr1
    rw [hq3] at hbr2
    have hbFp := bytes_lt_of_append_left hbr2
    have hbr3 := bytes_lt_of_append_right hbr2
    rw [hq4] at hbr3
    have hbBid := bytes_lt_of_append_left hbr3
    have hbr4 := bytes_lt_of_append_right hbr3
    rw [hq5] at hbr4
    have hbLeaf := bytes_lt_of_append_left hbr4
    have hbr5 := bytes_lt_of_append_right hbr4
    rw [hq6] at hbr5
    have hbPl := bytes_lt_of_append_left hbr5
    have hbr6 := bytes_lt_of_append_right hbr5
    obtain ⟨h7a, h7b, h7c⟩ := readPath_sound (fromBytesLE plB) r6 pth r7 hbr6 heq7
    rw [h7a] at hbr6
    have hbr7 := bytes_lt_of_append_right hbr6
    rw [hq8] at hbr7
    have hbCl := bytes_lt_of_append_left hbr7
    have hbr8 := bytes_lt_of_append_right hbr7
    obtain ⟨h9a, h9b, h9c⟩ := readRoots_sound (fromBytesLE clB) r8 chain r9 hbr8 heq9
    rw [h9a] at hbr8
    have hbr9 := bytes_lt_of_append_right hbr8
    rw [hq10] at hbr9
    have hbSig := bytes_lt_of_append_left hbr9
    constructor
    · rw [hq1, hq2, hq3, hq4, hq5, hq6, h7a, hq8, h9a, hq10]
      unfold encodeBody encBytes
      dsimp only
      rw [hlenc, natFixed_of_len hlen1 hbLen, natFixed_of_len hlen3 hbFp,
        natFixed_of_len hlen4 hbBid, natFixed_of_len hlen5 hbLeaf,
        h7b, natFixed_of_len hlen6 hbPl, h9b, natFixed_of_len hlen8 hbCl,
        natFixed_of_len hlen10 hbSig]
      simp [List.append_assoc]
    · simp only [wfToken, Bool.and_eq_true, decide_eq_true_eq, List.all_eq_true]
      refine ⟨⟨⟨⟨⟨⟨⟨⟨⟨⟨trivial, ?_⟩, ?_⟩, ?_⟩, ?_⟩, ?_⟩, ?_⟩, ?_⟩, ?_⟩, ?_⟩, ?_⟩
      · rw [hlenc]
        exact fromBytes4_lt hlen1 hbLen
      · exact fun b hb => hbCred b hb
      · exact fromBytes32_lt hlen3 hbFp
      · exact fromBytes4_lt hlen4 hbBid
      · exact fromBytes32_lt hlen5 hbLeaf
      · rw [h7b]
        exact fromBytes4_lt hlen6 hbPl
      · exact fun e he => h7c e he
      · rw [h9b]
        exact fromBytes4_lt hlen8 hbCl
      · exact fun a ha => h9c a ha
      · exact fromBytes32_lt hlen10 hbSig
  case _ =>
    exact absurd h (by simp)

theorem decode_sound (p : Bytes) (t : VerificationToken) (h : decode p = .ok t) :
    p = encodeToken t ∧ wfToken t = true := by
  unfold decode at h
  split at h
  case _ hall =>
    split at h
    · exact absurd h (by simp)
    next v q =>
      split at h
      case _ hv =>
        unfold decodeBody at h
        split at h
        case _ t' hpb =>
          obtain rfl : t' = t := DecodeResult.ok.inj h
          have hqb : ∀ b ∈ q, b < 256 := by
            simp only [List.all_eq_true, decide_eq_true_eq] at hall
            exact fun b hb => hall b (List.mem_cons_of_mem v hb)
          obtain ⟨hbody, hwf⟩ := parseBody_sound q _ hqb hpb
          refine ⟨?_, hwf⟩
          rw [hv, hbody]
          rfl
        case _ => exact absurd h (by simp)
      case _ => exact absurd h (by simp)
  case _ => exact absurd h (by simp)

theorem encPathEntry_append_inj {e1 e2 : Bool × Nat} {x y : Bytes}
    (h1 : e1.2 < 2 ^ 256) (h2 : e2.2 < 2 ^ 256)
    (h : encPathEntry e1 ++ x = encPathEntry e2 ++ y) : e1 = e2 ∧ x = y := by
  unfold encPathEntry at h
  simp only [List.cons_append, List.cons.injEq] at h
  obtain ⟨hd, hrest⟩ := h
  have hb1 : e1.2 < 256 ^ 32 := by
    calc e1.2 < 2 ^ 256 := h1
    _ = 256 ^ 32 := by norm_num
  have hb2 : e2.2 < 256 ^ 32 := by
    calc e2.2 < 2 ^ 256 := h2
    _ = 256 ^ 32 := by norm_num
  obtain ⟨hsib, hxy⟩ := natFixed_append_inj 32 hb1 hb2 hrest
  refine ⟨?_, hxy⟩
  obtain ⟨b1, n1⟩ := e1
  obtain ⟨b2, n2⟩ := e2
  simp only at hd hsib
  cases b1 <;> cases b2 <;> simp_all

theorem encPath_append_inj : ∀ (l1 l2 : List (Bool × Nat)) (x y : Bytes),
    l1.length = l2.length →
    (∀ e ∈ l1, e.2 < 2 ^ 256) → (∀ e ∈ l2, e.2 < 2 ^ 256) →
    (l1.map encPathEntry).flatten ++ x = (l2.map encPathEntry).flatten ++ y →
    l1 = l2 ∧ x = y := by
  intro l1
  induction l1 with
  | nil =>
      intro l2 x y hlen _ _ h
      cases l2 with
      | nil => simpa using h
      | cons b t => simp at hlen
  | cons a t1 ih =>
      intro l2 x y hlen hw1 hw2 h
      cases l2 with
      | nil => simp at hlen
      | cons b t2 =>
          simp only [List.map_cons, List.flatten_cons, List.append_assoc] at h
          obtain ⟨hab, h3⟩ := encPathEntry_append_inj (hw1 a (by simp)) (hw2 b (by simp)) h
          obtain ⟨ht, hxy⟩ := ih t2 x y (by simpa using hlen)
            (fun c hc => hw1 c (by simp [hc])) (fun c hc => hw2 c (by simp [hc])) h3
          exact ⟨by rw [hab, ht], hxy⟩

theorem encRoots_append_inj : ∀ (l1 l2 : List Nat) (x y : Bytes),
    l1.length = l2.length →
    (∀ a ∈ l1, a < 2 ^ 256) → (∀ a ∈ l2, a < 2 ^ 256) →
    (l1.map (natFixed 32)).flatten ++ x = (l2.map (natFixed 32)).flatten ++ y →
    l1 = l2 ∧ x = y := by
  intro l1
  induction l1 with
  | nil =>
      intro l2 x y hlen _ _ h
      cases l2 with
      | nil => simpa using h
      | cons b t => simp at hlen
  | cons a t1 ih =>
      intro l2 x y hlen hw1 hw2 h
      cases l2 with
      | nil => simp at hlen
      | cons b t2 =>
          simp only [List.map_cons, List.flatten_cons, List.append_assoc] at h
          have hb1 : a < 256 ^ 32 := by
            calc a < 2 ^ 256 := hw1 a (by simp)
            _ = 256 ^ 32 := by norm_num
          have hb2 : b < 256 ^ 32 := by
            calc b < 2 ^ 256 := hw2 b (by simp)
            _ = 256 ^ 32 := by norm_num
          obtain ⟨hab, h3⟩ := natFixed_append_inj 32 hb1 hb2 h
          obtain ⟨ht, hxy⟩ := ih t2 x y (by simpa using hlen)
            (fun c hc => hw1 c (by simp [hc])) (fun c hc => hw2 c (by simp [hc])) h3
          exact ⟨by rw [hab, ht], hxy⟩

theorem lt_pow_conv32 {n : Nat} (h : n < 2 ^ 256) : n < 256 ^ 32 := by
  calc n < 2 ^ 256 := h
  _ = 256 ^ 32 := by norm_num

theorem lt_pow_conv4 {n : Nat} (h : n < 2 ^ 32) : n < 256 ^ 4 := by
  calc n < 2 ^ 32 := h
  _ = 256 ^ 4 := by norm_num

theorem encodeBody_append_inj {t1 t2 : VerificationToken} {x y : Bytes}
    (hw1 : wfToken t1 = true) (hw2 : wfToken t2 = true)
    (h : encodeBody t1 ++ x = encodeBody t2 ++ y) : t1 = t2 ∧ x = y := by
  simp only [wfToken, Bool.and_eq_true, decide_eq_true_eq, List.all_eq_true] at hw1 hw2
  obtain ⟨⟨⟨⟨⟨⟨⟨⟨⟨⟨hA1, hB1⟩, hC1⟩, hD1⟩, hE1⟩, hF1⟩, hG1⟩, hH1⟩, hI1⟩, hJ1⟩, hK1⟩ := hw1
  obtain ⟨⟨⟨⟨⟨⟨⟨⟨⟨⟨hA2, hB2⟩, hC2⟩, hD2⟩, hE2⟩, hF2⟩, hG2⟩, hH2⟩, hI2⟩, hJ2⟩, hK2⟩ := hw2
  unfold encodeBody at h
  simp only [List.append_assoc] at h
  obtain ⟨hcred, h⟩ := encBytes_append_inj hB1 hB2 h
  obtain ⟨hfp, h⟩ := natFixed_append_inj 32 (lt_pow_conv32 hD1) (lt_pow_conv32 hD2) h
  obtain ⟨hbid, h⟩ := natFixed_append_inj 4 (lt_pow_conv4 hE1) (lt_pow_conv4 hE2) h
  obtain ⟨hleaf, h⟩ := natFixed_append_inj 32 (lt_pow_conv32 hF1) (lt_pow_conv32 hF2) h
  obtain ⟨hplen, h⟩ := natFixed_append_inj 4 (lt_pow_conv4 hG1) (lt_pow_conv4 hG2) h
  obtain ⟨hpath, h⟩ := encPath_append_inj _ _ _ _ hplen
    (fun e he => hH1 e he) (fun e he => hH2 e he) h
  obtain ⟨hclen, h⟩ := natFixed_append_inj 4 (lt_pow_conv4 hI1) (lt_pow_conv4 hI2) h
  obtain ⟨hchain, h⟩ := encRoots_append_inj _ _ _ _ hclen
    (fun a ha => hJ1 a ha) (fun a ha => hJ2 a ha) h
  obtain ⟨hsig, hxy⟩ := natFixed_append_inj 32 (lt_pow_conv32 hK1) (lt_pow_conv32 hK2) h
  refine ⟨?_, hxy⟩
  obtain ⟨v1, c1, f1, pr1, s1⟩ := t1
  obtain ⟨lf1, sp1, bi1, rc1⟩ := pr1
  obtain ⟨v2, c2, f2, pr2, s2⟩ := t2
  obtain ⟨lf2, sp2, bi2, rc2⟩ := pr2
  simp only at hA1 hA2 hcred hfp hbid hleaf hpath hchain hsig ⊢
  rw [hA1, hA2, hcred, hfp, hbid, hleaf, hpath, hchain, hsig]

theorem drop_len_le {k : Nat} {l : Bytes} (h : l.drop k = []) : l.length ≤ k := by
  have := congrArg List.length h
  rw [List.length_drop] at this
  simp at this
  omega

theorem decode_take_ne_ok (t t' : VerificationToken) (k : Nat)
    (hw : wfToken t = true) (hk : k < (encodeToken t).length)
    (h : decode ((encodeToken t).take k) = .ok t') : False := by
  obtain ⟨hp, hw'⟩ := decode_sound _ t' h
  have hfull : encodeToken t' ++ (encodeToken t).drop k = encodeToken t := by
    rw [← hp, List.take_append_drop]
  unfold encodeToken at hfull
  have hcons : (versionByte :: encodeBody t') ++ (versionByte :: encodeBody t).drop k =
      (versionByte :: encodeBody t) ++ [] := by
    simpa using hfull
  rw [List.cons_append] at hcons
  have hbody : encodeBody t' ++ (versionByte :: encodeBody t).drop k =
      encodeBody t ++ [] := by
    have := List.cons.injEq .. |>.mp hcons
    exact this.2
  obtain ⟨hteq, hrest⟩ := encodeBody_append_inj hw' hw hbody
  have := drop_len_le hrest
  unfold encodeToken at hk
  omega

theorem decodeBody_ne_unsupported (q : Bytes) : decodeBody q ≠ .unsupportedVersion := by
  unfold decodeBody
  cases parseBody q <;> simp

theorem bytes_lt_append {a c : Bytes} (ha : ∀ b ∈ a, b < 256)
    (hc : ∀ b ∈ c, b < 256) : ∀ b ∈ a ++ c, b < 256 := by
  intro b hb
  rcases List.mem_append.mp hb with h | h
  · exact ha b h
  · exact hc b h

theorem encodeToken_bytes_lt (t : VerificationToken) (hw : wfToken t = true) :
    ∀ b ∈ encodeToken t, b < 256 := by
  simp only [wfToken, Bool.and_eq_true, decide_eq_true_eq, List.all_eq_true] at hw
  obtain ⟨⟨⟨⟨⟨⟨⟨⟨⟨⟨hA, hB⟩, hC⟩, hD⟩, hE⟩, hF⟩, hG⟩, hH⟩, hI⟩, hJ⟩, hK⟩ := hw
  have hpath : ∀ b ∈ (t.proof.siblingPath.map encPathEntry).flatten, b < 256 := by
    intro b hb
    obtain ⟨bs, hbs, hbbs⟩ := List.mem_flatten.mp hb
    obtain ⟨e, he, rfl⟩ := List.mem_map.mp hbs
    unfold encPathEntry at hbbs
    rcases List.mem_cons.mp hbbs with h1 | h1
    · rw [h1]
      split <;> norm_num
    · exact natFixed_bytes_lt 32 _ b h1
  have hroots : ∀ b ∈ (t.proof.rootChain.map (natFixed 32)).flatten, b < 256 := by
    intro b hb
    obtain ⟨bs, hbs, hbbs⟩ := List.mem_flatten.mp hb
    obtain ⟨a, ha, rfl⟩ := List.mem_map.mp hbs
    exact natFixed_bytes_lt 32 _ b hbbs
  have hbody : ∀ b ∈ encodeBody t, b < 256 := by
    unfold encodeBody encBytes
    exact bytes_lt_append (bytes_lt_append (bytes_lt_append (bytes_lt_append
      (bytes_lt_append (bytes_lt_append (bytes_lt_append (bytes_lt_append
        (bytes_lt_append (natFixed_bytes_lt 4 _) hC) (natFixed_bytes_lt 32 _))
        (natFixed_bytes_lt 4 _)) (natFixed_bytes_lt 32 _)) (natFixed_bytes_lt 4 _))
      hpath) (natFixed_bytes_lt 4 _)) hroots) (natFixed_bytes_lt 32 _)
  intro b hb
  unfold encodeToken at hb
  rcases List.mem_cons.mp hb with h1 | h1
  · rw [h1]
    norm_num [versionByte]
  · exact hbody b h1

/-- C7: Token codec error handling — `decode` is total, returning a token,
the explicit MalformedToken value, or UnsupportedVersion (never a crash or a
best-effort parse); a payload whose format-version byte is unknown decodes to
UnsupportedVersion; and every strict truncation of a well-formed encoded
token deterministically decodes to MalformedToken. -/
theorem decode_error_handling :
    (∀ p : Bytes, (∃ t, decode p = .ok t) ∨ decode p = .malformed ∨
      decode p = .unsupportedVersion) ∧
    (∀ (v : Nat) (q : Bytes), (v :: q).all (fun b => decide (b < 256)) = true →
      v ≠ versionByte → decode (v :: q) = .unsupportedVersion) ∧
    (∀ (t : VerificationToken) (k : Nat), wfToken t = true →
      k < (encodeToken t).length → decode ((encodeToken t).take k) = .malformed) := by
  refine ⟨?_, ?_, ?_⟩
  · intro p
    cases h : decode p with
    | ok t => exact Or.inl ⟨t, rfl⟩
    | malformed => exact Or.inr (Or.inl rfl)
    | unsupportedVersion => exact Or.inr (Or.inr rfl)
  · intro v q hall hv
    unfold decode
    rw [if_pos hall]
    show (if v = versionByte then decodeBody q else .unsupportedVersion) = _
    rw [if_neg hv]
  · intro t k hw hk
    cases hdec : decode ((encodeToken t).take k) with
    | ok t' => exact absurd hdec (fun hh => decode_take_ne_ok t t' k hw hk hh)
    | malformed => rfl
    | unsupportedVersion =>
        exfalso
        cases k with
        | zero =>
            rw [List.take_zero] at hdec
            simp [decode] at hdec
        | succ j =>
            have htk : (encodeToken t).take (j + 1) =
                versionByte :: (encodeBody t).take j := rfl
            rw [htk] at hdec
            have hall : (versionByte :: (encodeBody t).take j).all
                (fun b => decide (b < 256)) = true := by
              simp only [List.all_eq_true, decide_eq_true_eq]
              intro b hb
              rcases List.mem_cons.mp hb with h1 | h1
              · rw [h1]
                norm_num [versionByte]
              · exact encodeToken_bytes_lt t hw b
                  (List.mem_cons_of_mem _ (List.mem_of_mem_take h1))
            have hred : decode (versionByte :: (encodeBody t).take j) =
                decodeBody ((encodeBody t).take j) := by
              unfold decode
              rw [if_pos hall]
              show (if versionByte = versionByte then decodeBody _
                else .unsupportedVersion) = _
              rw [if_pos rfl]
            rw [hred] at hdec
            exact decodeBody_ne_unsupported _ hdec

set_option maxRecDepth 100000 in
/-- Witness for C7: totality on the empty payload, unknown version byte 0,
and truncation of a concrete encoded token. -/
theorem decode_error_handling_witness :
    ((∃ t, decode [] = .ok t) ∨ decode [] = .malformed ∨
      decode [] = .unsupportedVersion) ∧
    decode (0 :: [1, 2]) = .unsupportedVersion ∧
    decode ((encodeToken demoWfToken).take 3) = .malformed :=
  ⟨decode_error_handling.1 [],
   decode_error_handling.2.1 0 [1, 2] (by decide) (by decide),
   decode_error_handling.2.2 demoWfToken 3 (by decide) (by decide)⟩

/-- C8: Search/list result surface — every result returned by the (modelled)
employer search endpoint carries a boolean `verified` flag equal to the
Verifier's Verified outcome and a `proof.hash` rendering of the Fingerprint,
and the dashboard (from `Employer.tsx`) displays exactly these: the badge
driven by the flag, and the first 32 characters of `proof.hash` in the
blockchain-hash line. -/
theorem search_result_surface (s : LedgerState)
    (items : List (Student × CredentialRecord × VerificationToken))
    (res : SearchResult) (hres : res ∈ searchEndpoint s items) :
    ∃ it ∈ items,
      res.verified = .jbool (decide (verify s it.2.1 it.2.2 = .Verified)) ∧
      res.proof = some ⟨some (hashString (credFingerprint it.2.1))⟩ ∧
      badgeText res = (if verify s it.2.1 it.2.2 = .Verified
        then "✓ Verified on Blockchain" else "⚠ Not Verified") ∧
      hashLine res = some ("Blockchain Hash: " ++
        jsSubstring32 (hashString (credFingerprint it.2.1)) ++ "...") := by
  obtain ⟨it, hit, rfl⟩ := List.mem_map.mp hres
  refine ⟨it, hit, rfl, rfl, ?_, rfl⟩
  unfold badgeText truthy
  by_cases hv : verify s it.2.1 it.2.2 = .Verified <;> simp [hv]

/-- C9: the employer dashboard classifies every result into exactly one of
two displayed states by the truthiness of its `verified` field: a truthy
flag renders the verified badge and any falsy or absent flag renders the
not-verified badge; no third state exists (`Employer.tsx` lines 54-62). -/
theorem badge_two_states (r : SearchResult) :
    (truthy r.verified = true ∧ badgeText r = "✓ Verified on Blockchain") ∨
    (truthy r.verified = false ∧ badgeText r = "⚠ Not Verified") := by
  unfold badgeText
  cases hv : truthy r.verified
  · right
    exact ⟨rfl, by rw [if_neg (by simp [hv])]⟩
  · left
    exact ⟨rfl, by rw [if_pos (by simp [hv])]⟩

/-- C10: the dashboard is total over missing response fields — an absent
`results` field yields the empty list (`data.results || []`); the
blockchain-hash line is rendered only when `proof` is present; and an absent
`proof.hash` still renders via optional chaining (an empty prefix before the
literal dots) instead of throwing (`Employer.tsx` lines 9-16 and 75-79). -/
theorem dashboard_total_on_missing_fields :
    (∀ resp : SearchResponse, resp.results = none → doSearchResults resp = []) ∧
    (∀ r : SearchResult, r.proof = none → hashLine r = none) ∧
    (∀ (r : SearchResult) (p : ProofInfo), r.proof = some p → p.hash = none →
      hashLine r = some ("Blockchain Hash: " ++ "" ++ "...")) := by
  refine ⟨?_, ?_, ?_⟩
  · intro resp h
    unfold doSearchResults
    rw [h]
    rfl
  · intro r h
    unfold hashLine
    rw [h]
    rfl
  · intro r p hp hh
    unfold hashLine
    rw [hp]
    simp [hh]

/-- Witness for C8 on the concrete one-item search. -/
theorem search_result_surface_witness :
    ∃ it ∈ demoItems,
      demoResult.verified = .jbool (decide (verify initialLedger it.2.1 it.2.2 = .Verified)) ∧
      demoResult.proof = some ⟨some (hashString (credFingerprint it.2.1))⟩ ∧
      badgeText demoResult = (if verify initialLedger it.2.1 it.2.2 = .Verified
        then "✓ Verified on Blockchain" else "⚠ Not Verified") ∧
      hashLine demoResult = some ("Blockchain Hash: " ++
        jsSubstring32 (hashString (credFingerprint it.2.1)) ++ "...") :=
  search_result_surface initialLedger demoItems demoResult
    (by simp [searchEndpoint, demoItems, demoResult])

/-- Witness for C10 on concrete responses and results with the fields
missing. -/
theorem dashboard_total_witness :
    doSearchResults ⟨none⟩ = [] ∧
    hashLine ⟨⟨"s1", []⟩, .undef, none⟩ = none ∧
    hashLine ⟨⟨"s1", []⟩, .undef, some ⟨none⟩⟩ =
      some ("Blockchain Hash: " ++ "" ++ "...") :=
  ⟨dashboard_total_on_missing_fields.1 ⟨none⟩ rfl,
   dashboard_total_on_missing_fields.2.1 _ rfl,
   dashboard_total_on_missing_fields.2.2 _ ⟨none⟩ rfl rfl⟩
